import Mathlib

/-!
Verification development for the `anchorfix` repository.

The repository rewrites heading/anchor identifiers in an HTML document into a
sequential scheme (`a0001`, `a0002`, …) and rewrites fragment-only references
so the document stays internally consistent.  The core module `_core.py` is
not present in the available sources (only `__init__.py`, `__main__.py` and
the test suite `_core_test.py` are); the core operations below are therefore
modelled from the specification document, faithful to its words, while the
package-surface facts are embedded from `__init__.py` directly.
-/

set_option autoImplicit false

namespace Anchorfix

/-! ## Identifier Generator -/

/-- Decimal digit character for `d < 10`. -/
def digitChar (d : Nat) : Char := Char.ofNat (48 + d)

/-- Decimal digits, most significant first; structural recursion on fuel so
that the definition evaluates by kernel reduction. -/
def natDigitsAux : Nat → Nat → List Char
  | 0, _ => []
  | fuel + 1, n =>
    if n < 10 then [digitChar n]
    else natDigitsAux fuel (n / 10) ++ [digitChar (n % 10)]

/-- Decimal digits of a natural number, most significant first. -/
def natDigits (n : Nat) : List Char := natDigitsAux (n + 1) n

/-- Decimal rendering of a natural number. -/
def natRepr (n : Nat) : String := String.mk (natDigits n)

/-- Modelled from the spec: the Identifier Generator's zero padding (missing
source `_core.py`): the counter rendered in decimal, left-padded with zeros
to at least 4 digits, widening naturally beyond 9999. -/
def zeroPad4 (n : Nat) : String :=
  String.mk (List.replicate (4 - (natDigits n).length) '0') ++ natRepr n

/-- Modelled from the spec: the Identifier Generator (missing source
`_core.py`): given a prefix string and a 1-based counter, produce the prefix
concatenated with the counter zero-padded to at least 4 digits. -/
def anchorId (pfx : String) (n : Nat) : String := pfx ++ zeroPad4 n

/-! ## URL Normalizer -/

/-- Value of a hexadecimal digit character, if it is one. -/
def hexVal (c : Char) : Option Nat :=
  if '0' ≤ c ∧ c ≤ '9' then some (c.toNat - 48)
  else if 'a' ≤ c ∧ c ≤ 'f' then some (c.toNat - 97 + 10)
  else if 'A' ≤ c ∧ c ≤ 'F' then some (c.toNat - 65 + 10)
  else none

/-- UTF-8 encoding of a single character, as a list of byte values. -/
def utf8EncodeChar (c : Char) : List Nat :=
  let n := c.toNat
  if n < 0x80 then [n]
  else if n < 0x800 then [0xC0 + n / 64, 0x80 + n % 64]
  else if n < 0x10000 then
    [0xE0 + n / 4096, 0x80 + (n / 64) % 64, 0x80 + n % 64]
  else
    [0xF0 + n / 262144, 0x80 + (n / 4096) % 64, 0x80 + (n / 64) % 64,
      0x80 + n % 64]

/-- Whether a byte value is a UTF-8 continuation byte. -/
def contByte (b : Nat) : Prop := 0x80 ≤ b ∧ b < 0xC0

instance (b : Nat) : Decidable (contByte b) := by
  unfold contByte; infer_instance

/-- UTF-8 decoding of a list of byte values; `none` on malformed input. -/
def utf8Decode : List Nat → Option (List Char)
  | [] => some []
  | b :: bs =>
    if b < 0x80 then
      (utf8Decode bs).map (fun cs => Char.ofNat b :: cs)
    else if b < 0xC0 then none
    else if b < 0xE0 then
      match bs with
      | b1 :: bs1 =>
        if contByte b1 then
          let n := (b - 0xC0) * 64 + (b1 - 0x80)
          if Nat.isValidChar n then (utf8Decode bs1).map (fun cs => Char.ofNat n :: cs)
          else none
        else none
      | [] => none
    else if b < 0xF0 then
      match bs with
      | b1 :: b2 :: bs2 =>
        if contByte b1 ∧ contByte b2 then
          let n := (b - 0xE0) * 4096 + (b1 - 0x80) * 64 + (b2 - 0x80)
          if Nat.isValidChar n then (utf8Decode bs2).map (fun cs => Char.ofNat n :: cs)
          else none
        else none
      | _ => none
    else if b < 0xF8 then
      match bs with
      | b1 :: b2 :: b3 :: bs3 =>
        if contByte b1 ∧ contByte b2 ∧ contByte b3 then
          let n := (b - 0xF0) * 262144 + (b1 - 0x80) * 4096 +
            (b2 - 0x80) * 64 + (b3 - 0x80)
          if Nat.isValidChar n then (utf8Decode bs3).map (fun cs => Char.ofNat n :: cs)
          else none
        else none
      | _ => none
    else none

/-- Byte sequence denoted by a fragment string: literal characters contribute
their UTF-8 bytes, `%XX` escapes contribute the byte `XX`; `none` when a `%`
is not followed by two hexadecimal digits. -/
def pctBytes : List Char → Option (List Nat)
  | [] => some []
  | '%' :: c1 :: c2 :: rest =>
    match hexVal c1, hexVal c2 with
    | some hi, some lo => (pctBytes rest).map (fun bs => (16 * hi + lo) :: bs)
    | _, _ => none
  | '%' :: _ => none
  | c :: rest => (pctBytes rest).map (fun bs => utf8EncodeChar c ++ bs)

/-- Modelled from the spec: the URL Normalizer (missing source `_core.py`):
percent-decode a fragment string (including multi-byte UTF-8 sequences) into
its canonical decoded form; on a malformed percent sequence the raw string is
used as given (passthrough, no error). -/
def normalizeFragment (s : String) : String :=
  match (pctBytes s.data).bind utf8Decode with
  | some cs => String.mk cs
  | none => s

/-! ## Data model -/

/-- A node of the Document Tree in document order: an element with a tag and
an attribute mapping, or a chunk of non-element text. -/
inductive Node where
  | elem (tag : String) (attrs : List (String × String))
  | text (s : String)
  deriving DecidableEq

/-- The Duplicate-Identifier error: carries the duplicated identifier as the
queryable field `id_value`, as the test suite observes it. -/
structure DuplicateIdError where
  id_value : String
  deriving DecidableEq

/-- The error conditions surfaced by the core: the duplicate-identifier
condition and the file-not-found condition of the file-reading entry point. -/
inductive AnchorfixError where
  | duplicate (e : DuplicateIdError)
  | fileNotFound
  deriving DecidableEq

/-- First value bound to a key in an attribute mapping (or identifier
mapping), if any. -/
def alookup (a : String) : List (String × String) → Option String
  | [] => none
  | p :: ps => if p.1 = a then some p.2 else alookup a ps

/-- The heading tags recognized as anchorable via an `id` attribute. -/
def headingTags : List String := ["h1", "h2", "h3", "h4", "h5", "h6"]

/-- Modelled from the spec: anchorable-attribute recognition (missing source
`_core.py`): headings `h1`–`h6` use the `id` attribute only; anchor tags use
`id` if present, else the legacy `name` attribute; other elements are not
anchorable.  Returns the name of the identifier-bearing attribute. -/
def identAttrName (tag : String) (attrs : List (String × String)) : Option String :=
  if tag ∈ headingTags then
    if (alookup "id" attrs).isSome then some "id" else none
  else if tag = "a" then
    if (alookup "id" attrs).isSome then some "id"
    else if (alookup "name" attrs).isSome then some "name"
    else none
  else none

/-- Normalized current identifier of a node, when the node is anchorable. -/
def nodeKey : Node → Option String
  | .elem tag attrs =>
    (identAttrName tag attrs).bind fun a => (alookup a attrs).map normalizeFragment
  | .text _ => none

/-- The normalized identifiers of the anchorable elements, in document
order. -/
def scanIds (doc : List Node) : List String := doc.filterMap nodeKey

/-- The identifier mapping the Anchor Scanner builds on a duplicate-free
document: the keys in order, paired with sequential new identifiers starting
at counter `c`. -/
def enumFrom (pfx : String) : Nat → List String → List (String × String)
  | _, [] => []
  | c, k :: ks => (k, anchorId pfx c) :: enumFrom pfx (c + 1) ks

/-- The sequential new identifiers `anchorId pfx c`, …, for `n` elements. -/
def idsFrom (pfx : String) : Nat → Nat → List String
  | _, 0 => []
  | c, n + 1 => anchorId pfx c :: idsFrom pfx (c + 1) n

/-- Modelled from the spec: the Anchor Scanner (missing source `_core.py`):
walk the document in order; for each anchorable element normalize its current
identifier; fail with the duplicate-identifier error if that key is already
in the mapping being built, else record normalized-old → next sequential new
identifier. -/
def buildMapping (pfx : String) : List Node → Nat → List (String × String) →
    Except AnchorfixError (List (String × String))
  | [], _, m => .ok m
  | n :: rest, c, m =>
    match nodeKey n with
    | none => buildMapping pfx rest c m
    | some k =>
      if k ∈ m.map Prod.fst then .error (.duplicate ⟨k⟩)
      else buildMapping pfx rest (c + 1) (m ++ [(k, anchorId pfx c)])

/-- Target of a fragment-only reference value: the remainder after a leading
`#`; `none` when the value has any content before a `#` or no `#` at all. -/
def fragTarget (v : String) : Option String :=
  match v.data with
  | '#' :: rest => some (String.mk rest)
  | _ => none

/-- Modelled from the spec: the Rewriter's treatment of one attribute value
(missing source `_core.py`): the element's identifier-bearing attribute is
set to its new identifier from the mapping; any other attribute whose value
is fragment-only has its normalized target looked up in the mapping and, when
found, is replaced by `#` plus the new identifier; everything else is left
unchanged. -/
def rewriteVal (m : List (String × String)) (ida : Option String)
    (a v : String) : String :=
  if ida = some a then (alookup (normalizeFragment v) m).getD v
  else
    match fragTarget v with
    | some t =>
      match alookup (normalizeFragment t) m with
      | some nid => "#" ++ nid
      | none => v
    | none => v

/-- Rewriting of a single attribute binding: the key is kept, the value is
rewritten. -/
def rewriteAttr (m : List (String × String)) (ida : Option String)
    (p : String × String) : String × String :=
  (p.1, rewriteVal m ida p.1 p.2)

/-- Modelled from the spec: the Rewriter on one node (missing source
`_core.py`): element attributes are rewritten in place, text is untouched. -/
def rewriteNode (m : List (String × String)) : Node → Node
  | .elem tag attrs => .elem tag (attrs.map (rewriteAttr m (identAttrName tag attrs)))
  | .text s => .text s

/-- Modelled from the spec: the core pipeline on the parsed Document Tree
(missing source `_core.py`): build the identifier mapping (counter starting
at 1, empty mapping), propagate a duplicate-identifier error, else apply the
Rewriter to every node. -/
def processDoc (doc : List Node) (pfx : String) : Except AnchorfixError (List Node) :=
  (buildMapping pfx doc 1 []).map fun m => doc.map (rewriteNode m)

/-- The raw identifier value currently carried by a node's identifier-bearing
attribute, if the node is anchorable. -/
def rawId : Node → Option String
  | .elem tag attrs => (identAttrName tag attrs).bind fun a => alookup a attrs
  | .text _ => none

/-! ## HTML parsing and serialization (external-collaborator glue) -/

/-- Tag- and attribute-name characters. -/
def isNameChar (c : Char) : Bool := c.isAlphanum || c = '-' || c = '_' || c = ':'

/-- Whitespace characters inside a tag. -/
def isSpaceChar (c : Char) : Bool := c = ' ' || c = '\t' || c = '\n' || c = '\r'

/-- Modelled from the spec: attribute parsing of the lenient HTML parser the
core delegates to (missing source `_core.py`): read `name="value"`,
`name=value` and bare `name` pairs up to the closing `>`. -/
def parseAttrs : Nat → List Char → List (String × String) × List Char
  | 0, cs => ([], cs)
  | fuel + 1, cs0 =>
    let cs := cs0.dropWhile isSpaceChar
    match cs with
    | [] => ([], [])
    | '>' :: r => ([], r)
    | '/' :: r => parseAttrs fuel r
    | c :: _ =>
      if isNameChar c then
        let an := cs.takeWhile isNameChar
        let r1 := (cs.dropWhile isNameChar).dropWhile isSpaceChar
        match r1 with
        | '=' :: r2 =>
          let r2 := r2.dropWhile isSpaceChar
          match r2 with
          | '"' :: r3 =>
            let vv := r3.takeWhile (· != '"')
            let r4 := (r3.dropWhile (· != '"')).drop 1
            let (rest, r5) := parseAttrs fuel r4
            ((String.mk an, String.mk vv) :: rest, r5)
          | _ =>
            let vv := r2.takeWhile fun d => !(isSpaceChar d || d = '>')
            let r4 := r2.dropWhile fun d => !(isSpaceChar d || d = '>')
            let (rest, r5) := parseAttrs fuel r4
            ((String.mk an, String.mk vv) :: rest, r5)
        | _ =>
          let (rest, r5) := parseAttrs fuel r1
          ((String.mk an, "") :: rest, r5)
      else parseAttrs fuel (cs.drop 1)

/-- Modelled from the spec: the lenient HTML parser the core delegates to
(missing source `_core.py`): produce the document nodes in document order;
closing tags and plain text become text chunks. -/
def parseNodes : Nat → List Char → List Node
  | 0, _ => []
  | _ + 1, [] => []
  | fuel + 1, '<' :: '/' :: cs =>
    let body := cs.takeWhile (· != '>')
    let rest := (cs.dropWhile (· != '>')).drop 1
    .text ("</" ++ String.mk body ++ ">") :: parseNodes fuel rest
  | fuel + 1, '<' :: c :: cs =>
    if isNameChar c then
      let tg := (c :: cs).takeWhile isNameChar
      let r1 := (c :: cs).dropWhile isNameChar
      let (attrs, r2) := parseAttrs (r1.length + 1) r1
      .elem (String.mk tg) attrs :: parseNodes fuel r2
    else .text (String.mk ['<', c]) :: parseNodes fuel cs
  | _ + 1, ['<'] => [.text "<"]
  | fuel + 1, cs =>
    let t := cs.takeWhile (· != '<')
    let r := cs.dropWhile (· != '<')
    .text (String.mk t) :: parseNodes fuel r

/-- Parse an HTML text into its Document Tree. -/
def parseHtml (s : String) : List Node := parseNodes (s.data.length + 1) s.data

/-- Serialize one node back to text. -/
def serializeNode : Node → String
  | .text s => s
  | .elem tg attrs =>
    "<" ++ tg ++
      String.join (attrs.map fun p => " " ++ p.1 ++ "=" ++ "\"" ++ p.2 ++ "\"") ++ ">"

/-- Serialize the Document Tree back to text. -/
def serializeDoc (doc : List Node) : String := String.join (doc.map serializeNode)

/-! ## Pipeline entry points -/

/-- Modelled from the spec: `process_html` (missing source `_core.py`):
parse → scan → rewrite → serialize; empty input maps to empty output; the
duplicate-identifier error propagates to the caller. -/
def process_html (html : String) (pfx : String) : Except AnchorfixError String :=
  (processDoc (parseHtml html) pfx).map serializeDoc

/-- A filesystem snapshot: paths mapped to decoded UTF-8 text contents. -/
def FileSystem : Type := List (String × String)

/-- Modelled from the spec: `process_html_file` (missing source `_core.py`):
read the file at the path as UTF-8 text, failing with the file-not-found
condition when the path does not resolve, and delegate to `process_html`
without writing anything back. -/
def process_html_file (fs : FileSystem) (path : String) (pfx : String) :
    Except AnchorfixError String :=
  match alookup path fs with
  | none => .error .fileNotFound
  | some content => process_html content pfx

/-! ## Package surface (embedded from `src/src/anchorfix/__init__.py` and
`src/src/anchorfix/_core_test.py`) -/

/-- The `__all__` list of `anchorfix/__init__.py`. -/
def initAll : List String := ["anchorfix", "PythonInfo"]

/-- The names `anchorfix/__init__.py` imports from `anchorfix._core`. -/
def initCoreImports : List String := ["PythonInfo", "anchorfix"]

/-- Every top-level name bound in the `anchorfix` package namespace by
`__init__.py`: the imported `version`, the two re-exports from `._core`, and
the dunder assignments.  A `from anchorfix import X` for a non-submodule `X`
succeeds exactly when `X` is among these. -/
def initTopLevelNames : List String :=
  ["version", "PythonInfo", "anchorfix", "__all__", "__version__"]

/-- The names `_core_test.py` line 7 imports from the top-level `anchorfix`
package. -/
def coreTestTopLevelImports : List String :=
  ["DuplicateIdError", "process_html", "process_html_file"]

/-! ## Duplicate detection (specification device) -/

/-- First identifier in the list that repeats an identifier already seen. -/
def firstDupIn (seen : List String) : List String → Option String
  | [] => none
  | k :: ks => if k ∈ seen then some k else firstDupIn (seen ++ [k]) ks

/-! ## Lemmas about the Identifier Generator -/

theorem natDigitsAux_congr : ∀ (f1 f2 n : Nat), n < f1 → n < f2 →
    natDigitsAux f1 n = natDigitsAux f2 n := by
  intro f1
  induction f1 with
  | zero => intro f2 n h1 _; omega
  | succ f1 ih =>
    intro f2 n h1 h2
    match f2, h2 with
    | f2 + 1, _ =>
      simp only [natDigitsAux]
      by_cases h10 : n < 10
      · simp [h10]
      · have hpos : 0 < n := by omega
        have hdiv : n / 10 < n := Nat.div_lt_self hpos (by omega)
        simp only [h10, if_false]
        rw [ih f2 (n / 10) (by omega) (by omega)]

theorem natDigits_unfold (n : Nat) :
    natDigits n = if n < 10 then [digitChar n]
      else natDigits (n / 10) ++ [digitChar (n % 10)] := by
  unfold natDigits
  by_cases h10 : n < 10
  · simp [natDigitsAux, h10]
  · have hpos : 0 < n := by omega
    have hdiv : n / 10 < n := Nat.div_lt_self hpos (by omega)
    conv_lhs => rw [natDigitsAux]
    simp only [h10, if_false]
    rw [natDigitsAux_congr n (n / 10 + 1) (n / 10) (by omega) (by omega)]

theorem natDigits_length_pos (n : Nat) : 1 ≤ (natDigits n).length := by
  rw [natDigits_unfold]
  by_cases h10 : n < 10 <;> simp [h10]

theorem natDigits_length_le : ∀ (k n : Nat), n < 10 ^ (k + 1) →
    (natDigits n).length ≤ k + 1 := by
  intro k
  induction k with
  | zero =>
    intro n h
    rw [natDigits_unfold]
    have : n < 10 := by simpa using h
    simp [this]
  | succ k ih =>
    intro n h
    rw [natDigits_unfold]
    by_cases h10 : n < 10
    · simp [h10]
    · simp only [h10, if_false, List.length_append, List.length_cons,
        List.length_nil]
      have hd : n / 10 < 10 ^ (k + 1) := by
        rw [Nat.div_lt_iff_lt_mul (by omega)]
        calc n < 10 ^ (k + 1 + 1) := h
        _ = 10 ^ (k + 1) * 10 := by ring
      have := ih (n / 10) hd
      omega

theorem natDigits_length_ge : ∀ (k n : Nat), 10 ^ k ≤ n →
    k + 1 ≤ (natDigits n).length := by
  intro k
  induction k with
  | zero => intro n _; exact natDigits_length_pos n
  | succ k ih =>
    intro n h
    have h10 : ¬ n < 10 := by
      have h1 : (10 : Nat) ≤ 10 ^ (k + 1) := by
        calc (10 : Nat) = 10 ^ 1 := (pow_one 10).symm
        _ ≤ 10 ^ (k + 1) := Nat.pow_le_pow_right (by omega) (by omega)
      omega
    rw [natDigits_unfold]
    simp only [h10, if_false, List.length_append, List.length_cons,
      List.length_nil]
    have hd : 10 ^ k ≤ n / 10 := by
      rw [Nat.le_div_iff_mul_le (by omega)]
      calc 10 ^ k * 10 = 10 ^ (k + 1) := by ring
      _ ≤ n := h
    have := ih (n / 10) hd
    omega

/-! ## Lemmas about association lookups -/

theorem alookup_isSome_iff_mem (a : String) :
    ∀ l : List (String × String), (alookup a l).isSome ↔ a ∈ l.map Prod.fst := by
  intro l
  induction l with
  | nil => simp [alookup]
  | cons p ps ih =>
    by_cases hpa : p.1 = a
    · simp [alookup, hpa]
    · simp [alookup, hpa, ih, Ne.symm hpa]

theorem alookup_eq_some_of_mem_nodup {a u : String} :
    ∀ {l : List (String × String)}, (l.map Prod.fst).Nodup → (a, u) ∈ l →
    alookup a l = some u := by
  intro l
  induction l with
  | nil => intro _ hm; simp at hm
  | cons p ps ih =>
    intro hnd hm
    rcases List.mem_cons.mp hm with heq | htl
    · rw [← heq]; simp [alookup]
    · have hps : a ∈ ps.map Prod.fst :=
        List.mem_map.mpr ⟨(a, u), htl, rfl⟩
      have hne : p.1 ≠ a := by
        intro hc
        rw [List.map_cons, List.nodup_cons] at hnd
        exact hnd.1 (hc ▸ hps)
      simp only [alookup, hne, if_false]
      exact ih ((List.map_cons Prod.fst p ps ▸ hnd).of_cons) htl

theorem alookup_append_right {a : String} :
    ∀ (l1 l2 : List (String × String)), a ∉ l1.map Prod.fst →
    alookup a (l1 ++ l2) = alookup a l2 := by
  intro l1 l2
  induction l1 with
  | nil => intro _; rfl
  | cons p ps ih =>
    intro h
    simp only [List.map_cons, List.mem_cons] at h
    push_neg at h
    simpa [alookup, Ne.symm h.1] using ih h.2

/-! ## Lemmas about the built identifier mapping -/

theorem enumFrom_alookup_of_mem {pfx k : String} :
    ∀ (ids : List String) (c : Nat), k ∈ ids →
    ∃ nid, alookup k (enumFrom pfx c ids) = some nid := by
  intro ids
  induction ids with
  | nil => intro c h; simp at h
  | cons k0 ks ih =>
    intro c h
    by_cases hk : k0 = k
    · exact ⟨anchorId pfx c, by simp [enumFrom, alookup, hk]⟩
    · have hm : k ∈ ks := by
        rcases List.mem_cons.mp h with h | h
        · exact absurd h.symm hk
        · exact h
      obtain ⟨nid, hnid⟩ := ih (c + 1) hm
      exact ⟨nid, by simp [enumFrom, alookup, hk, hnid]⟩

theorem enumFrom_alookup_of_not_mem {pfx k : String} :
    ∀ (ids : List String) (c : Nat), k ∉ ids →
    alookup k (enumFrom pfx c ids) = none := by
  intro ids
  induction ids with
  | nil => intro c _; rfl
  | cons k0 ks ih =>
    intro c h
    simp only [List.mem_cons] at h
    push_neg at h
    simp [enumFrom, alookup, Ne.symm h.1, ih (c + 1) h.2]

theorem enumFrom_alookup_get {pfx : String} :
    ∀ (ids : List String) (c : Nat), ids.Nodup →
    ∀ (i : Nat) (h : i < ids.length),
    alookup (ids.get ⟨i, h⟩) (enumFrom pfx c ids) = some (anchorId pfx (c + i)) := by
  intro ids
  induction ids with
  | nil => intro c _ i h; simp at h
  | cons k0 ks ih =>
    intro c hnd i h
    match i, h with
    | 0, h => simp [enumFrom, alookup]
    | i + 1, h =>
      have hi : i < ks.length := by
        simp only [List.length_cons] at h
        omega
      have hmem : ks.get ⟨i, hi⟩ ∈ ks := List.get_mem ks i hi
      have hne : k0 ≠ ks.get ⟨i, hi⟩ := by
        intro hc
        exact (List.nodup_cons.mp hnd).1 (hc ▸ hmem)
      have : (k0 :: ks).get ⟨i + 1, h⟩ = ks.get ⟨i, hi⟩ := rfl
      rw [this]
      simp only [enumFrom, alookup, hne, if_false]
      rw [ih (c + 1) (List.nodup_cons.mp hnd).2 i hi]
      have harith : c + 1 + i = c + (i + 1) := by omega
      rw [harith]

/-! ## Lemmas about the Anchor Scanner -/

theorem buildMapping_ok {pfx : String} :
    ∀ (doc : List Node) (c : Nat) (m0 : List (String × String)),
    (scanIds doc).Nodup → (∀ k ∈ scanIds doc, k ∉ m0.map Prod.fst) →
    buildMapping pfx doc c m0 = .ok (m0 ++ enumFrom pfx c (scanIds doc)) := by
  intro doc
  induction doc with
  | nil => intro c m0 _ _; simp [buildMapping, scanIds, enumFrom]
  | cons n rest ih =>
    intro c m0 hnd hdisj
    cases hk : nodeKey n with
    | none =>
      have hs : scanIds (n :: rest) = scanIds rest := by
        simp [scanIds, List.filterMap_cons, hk]
      rw [hs] at hnd hdisj
      simpa [buildMapping, hk, hs] using ih c m0 hnd hdisj
    | some k =>
      have hs : scanIds (n :: rest) = k :: scanIds rest := by
        simp [scanIds, List.filterMap_cons, hk]
      rw [hs] at hnd hdisj
      have hknm : k ∉ m0.map Prod.fst := hdisj k (List.mem_cons_self k _)
      have hnd' : (scanIds rest).Nodup := (List.nodup_cons.mp hnd).2
      have hdisj' : ∀ k' ∈ scanIds rest,
          k' ∉ (m0 ++ [(k, anchorId pfx c)]).map Prod.fst := by
        intro k' hk'
        simp only [List.map_append, List.mem_append, List.map_cons,
          List.map_nil, List.mem_cons, List.not_mem_nil]
        push_neg
        refine ⟨hdisj k' (List.mem_cons_of_mem _ hk'), ?_, fun h => h⟩
        intro hc
        exact (List.nodup_cons.mp hnd).1 (hc ▸ hk')
      simp only [buildMapping, hk, hknm, if_false]
      rw [ih (c + 1) (m0 ++ [(k, anchorId pfx c)]) hnd' hdisj']
      simp [hs, enumFrom, List.append_assoc]

theorem buildMapping_err {pfx d : String} :
    ∀ (doc : List Node) (c : Nat) (m0 : List (String × String)),
    firstDupIn (m0.map Prod.fst) (scanIds doc) = some d →
    buildMapping pfx doc c m0 = .error (.duplicate ⟨d⟩) := by
  intro doc
  induction doc with
  | nil => intro c m0 h; simp [scanIds, firstDupIn] at h
  | cons n rest ih =>
    intro c m0 h
    cases hk : nodeKey n with
    | none =>
      have hs : scanIds (n :: rest) = scanIds rest := by
        simp [scanIds, List.filterMap_cons, hk]
      rw [hs] at h
      simpa [buildMapping, hk] using ih c m0 h
    | some k =>
      have hs : scanIds (n :: rest) = k :: scanIds rest := by
        simp [scanIds, List.filterMap_cons, hk]
      rw [hs] at h
      by_cases hmem : k ∈ m0.map Prod.fst
      · simp only [firstDupIn, hmem, if_true, Option.some.injEq] at h
        cases h
        simp [buildMapping, hk, hmem]
      · simp only [firstDupIn, hmem, if_false] at h
        have hkeys : (m0 ++ [(k, anchorId pfx c)]).map Prod.fst =
            m0.map Prod.fst ++ [k] := by simp
        simp only [buildMapping, hk, hmem, if_false]
        exact ih (c + 1) (m0 ++ [(k, anchorId pfx c)]) (hkeys ▸ h)

theorem firstDupIn_eq_none :
    ∀ (l seen : List String), firstDupIn seen l = none →
    l.Nodup ∧ ∀ a ∈ l, a ∉ seen := by
  intro l
  induction l with
  | nil => intro seen _; simp
  | cons k ks ih =>
    intro seen h
    by_cases hk : k ∈ seen
    · simp [firstDupIn, hk] at h
    · simp only [firstDupIn, hk, if_false] at h
      obtain ⟨hnd, hout⟩ := ih (seen ++ [k]) h
      refine ⟨List.nodup_cons.mpr ⟨?_, hnd⟩, ?_⟩
      · intro hc
        exact hout k hc (List.mem_append.mpr (Or.inr (by simp)))
      · intro a ha
        rcases List.mem_cons.mp ha with rfl | ha
        · exact hk
        · intro hc
          exact hout a ha (List.mem_append.mpr (Or.inl hc))

theorem firstDupIn_some_count {d : String} :
    ∀ (l seen : List String), firstDupIn seen l = some d →
    (d ∈ seen ∧ d ∈ l) ∨ 2 ≤ l.count d := by
  intro l
  induction l with
  | nil => intro seen h; simp [firstDupIn] at h
  | cons k ks ih =>
    intro seen h
    by_cases hk : k ∈ seen
    · simp only [firstDupIn, hk, if_true, Option.some.injEq] at h
      exact Or.inl ⟨h ▸ hk, h ▸ List.mem_cons_self k ks⟩
    · simp only [firstDupIn, hk, if_false] at h
      rcases ih (seen ++ [k]) h with ⟨hin, hmem⟩ | hcnt
      · rcases List.mem_append.mp hin with hs | hkk
        · exact Or.inl ⟨hs, List.mem_cons_of_mem _ hmem⟩
        · have hdk : d = k := by simpa using hkk
          subst hdk
          have : 2 ≤ (d :: ks).count d := by
            rw [List.count_cons_self]
            have h1 : 1 ≤ ks.count d := List.one_le_count_iff.mpr hmem
            omega
          exact Or.inr this
      · refine Or.inr ?_
        calc 2 ≤ ks.count d := hcnt
        _ ≤ (k :: ks).count d := by
            rw [List.count_cons]
            omega

/-! ## Lemmas about the Rewriter -/

theorem alookup_map_rewrite {m : List (String × String)} {ida : Option String}
    {a : String} : ∀ (attrs : List (String × String)),
    alookup a (attrs.map (rewriteAttr m ida)) =
      (alookup a attrs).map (rewriteVal m ida a) := by
  intro attrs
  induction attrs with
  | nil => rfl
  | cons p ps ih =>
    by_cases hpa : p.1 = a
    · simp [alookup, rewriteAttr, hpa]
    · simp [alookup, rewriteAttr, hpa, ih]

theorem identAttrName_map_rewrite {m : List (String × String)}
    {ida : Option String} (tag : String) (attrs : List (String × String)) :
    identAttrName tag (attrs.map (rewriteAttr m ida)) = identAttrName tag attrs := by
  unfold identAttrName
  rw [alookup_map_rewrite, alookup_map_rewrite, Option.isSome_map',
    Option.isSome_map']

theorem identAttrName_isSome {tag ia : String} {attrs : List (String × String)}
    (h : identAttrName tag attrs = some ia) : (alookup ia attrs).isSome := by
  unfold identAttrName at h
  split_ifs at h <;> simp_all

theorem rawId_rewriteNode_none {m : List (String × String)} {n : Node}
    (h : nodeKey n = none) : rawId (rewriteNode m n) = none := by
  cases n with
  | text s => rfl
  | elem tag attrs =>
    simp only [nodeKey] at h
    cases hia : identAttrName tag attrs with
    | none => simp [rawId, rewriteNode, identAttrName_map_rewrite, hia]
    | some ia =>
      exfalso
      obtain ⟨v, hv⟩ := Option.isSome_iff_exists.mp (identAttrName_isSome hia)
      rw [hia] at h
      simp [hv] at h

theorem rawId_rewriteNode_some {m : List (String × String)} {n : Node}
    {k nid : String} (hk : nodeKey n = some k) (hm : alookup k m = some nid) :
    rawId (rewriteNode m n) = some nid := by
  cases n with
  | text s => simp [nodeKey] at hk
  | elem tag attrs =>
    simp only [nodeKey] at hk
    cases hia : identAttrName tag attrs with
    | none => rw [hia] at hk; simp at hk
    | some ia =>
      rw [hia] at hk
      obtain ⟨v, hv⟩ := Option.isSome_iff_exists.mp (identAttrName_isSome hia)
      simp only [Option.some_bind, hv, Option.map_some'] at hk
      simp only [Option.some.injEq] at hk
      simp only [rawId, rewriteNode, identAttrName_map_rewrite, hia,
        Option.some_bind, alookup_map_rewrite, hv, Option.map_some']
      simp only [rewriteVal, if_pos rfl, hk, hm, Option.getD_some]
      simp

theorem mem_scanIds {doc : List Node} {n : Node} {k : String}
    (hn : n ∈ doc) (hk : nodeKey n = some k) : k ∈ scanIds doc := by
  unfold scanIds
  exact List.mem_filterMap.mpr ⟨n, hn, hk⟩

theorem fragTarget_hash_append (t : String) : fragTarget ("#" ++ t) = some t := by
  cases t with
  | mk data => rfl

/-! ## The pipeline on a duplicate-free document -/

theorem processDoc_ok {doc : List Node} {pfx : String}
    (hnd : (scanIds doc).Nodup) :
    processDoc doc pfx =
      .ok (doc.map (rewriteNode (enumFrom pfx 1 (scanIds doc)))) := by
  unfold processDoc
  rw [buildMapping_ok doc 1 [] hnd (by intro k _; simp)]
  rfl

theorem rawId_map_rewrite : ∀ (doc : List Node) (m : List (String × String)),
    (∀ k ∈ scanIds doc, (alookup k m).isSome) →
    (doc.map (rewriteNode m)).filterMap rawId =
      (scanIds doc).map (fun k => (alookup k m).getD "") := by
  intro doc
  induction doc with
  | nil => intro m _; rfl
  | cons n rest ih =>
    intro m hall
    cases hk : nodeKey n with
    | none =>
      have hs : scanIds (n :: rest) = scanIds rest := by
        simp [scanIds, List.filterMap_cons, hk]
      rw [hs] at hall
      simp only [List.map_cons, List.filterMap_cons,
        rawId_rewriteNode_none (m := m) hk, hs]
      exact ih m hall
    | some k =>
      have hs : scanIds (n :: rest) = k :: scanIds rest := by
        simp [scanIds, List.filterMap_cons, hk]
      rw [hs] at hall
      obtain ⟨nid, hnid⟩ := Option.isSome_iff_exists.mp
        (hall k (List.mem_cons_self k _))
      simp only [List.map_cons, List.filterMap_cons,
        rawId_rewriteNode_some (m := m) hk hnid, hs, hnid, Option.getD_some]
      rw [ih m fun k' hk' => hall k' (List.mem_cons_of_mem _ hk')]

theorem map_enumFrom_getD {pfx : String} :
    ∀ (ids : List String) (c : Nat), ids.Nodup →
    ids.map (fun k => (alookup k (enumFrom pfx c ids)).getD "") =
      idsFrom pfx c ids.length := by
  intro ids
  induction ids with
  | nil => intro c _; rfl
  | cons k ks ih =>
    intro c hnd
    have hk0 : alookup k (enumFrom pfx c (k :: ks)) = some (anchorId pfx c) := by
      simp [enumFrom, alookup]
    have htail : ∀ k' ∈ ks,
        (fun k' => (alookup k' (enumFrom pfx c (k :: ks))).getD "") k' =
        (fun k' => (alookup k' (enumFrom pfx (c + 1) ks)).getD "") k' := by
      intro k' hk'
      have hne : k ≠ k' := by
        intro hc
        exact (List.nodup_cons.mp hnd).1 (hc ▸ hk')
      simp [enumFrom, alookup, hne]
    simp only [List.map_cons, hk0, Option.getD_some, List.length_cons, idsFrom]
    rw [List.map_congr_left htail, ih (c + 1) (List.nodup_cons.mp hnd).2]

/-! ## The claims -/

/-- Claim C6: the Identifier Generator, given any prefix string and any
1-based counter, returns the prefix concatenated with the counter
zero-padded to at least 4 digits; for counters ≥ 10000 the result widens
naturally with no truncation and no cap. -/
theorem claim_C6_identifier_generator (pfx : String) (n : Nat) :
    anchorId pfx n =
      pfx ++ (String.mk (List.replicate (4 - (natDigits n).length) '0') ++ natRepr n) ∧
    (n ≤ 9999 → (anchorId pfx n).length = pfx.length + 4) ∧
    (10000 ≤ n → anchorId pfx n = pfx ++ natRepr n ∧
      pfx.length + 5 ≤ (anchorId pfx n).length) := by
  refine ⟨rfl, ?_, ?_⟩
  · intro hle
    have hlen : (natDigits n).length ≤ 4 :=
      natDigits_length_le 3 n (by omega)
    have hpos : 1 ≤ (natDigits n).length := natDigits_length_pos n
    simp only [anchorId, zeroPad4, String.length_append]
    have h1 : (String.mk (List.replicate (4 - (natDigits n).length) '0')).length =
        4 - (natDigits n).length := by
      simp [String.length]
    have h2 : (natRepr n).length = (natDigits n).length := by
      simp [natRepr, String.length]
    omega
  · intro hge
    have hlen : 5 ≤ (natDigits n).length := by
      have : 10 ^ 4 ≤ n := by norm_num; omega
      have := natDigits_length_ge 4 n this
      omega
    have hz : 4 - (natDigits n).length = 0 := by omega
    constructor
    · simp only [anchorId, zeroPad4, hz, List.replicate_zero]
      rw [show String.mk [] = "" from rfl, String.empty_append]
    · simp only [anchorId, zeroPad4, hz, List.replicate_zero]
      rw [show String.mk [] = "" from rfl, String.empty_append]
      simp only [String.length_append]
      have h2 : (natRepr n).length = (natDigits n).length := by
        simp [natRepr, String.length]
      omega

theorem claim_C6_witness :
    ((anchorId "a" 3).length = "a".length + 4) ∧
    (anchorId "xyz" 12345 = "xyz" ++ natRepr 12345 ∧
      "xyz".length + 5 ≤ (anchorId "xyz" 12345).length) :=
  ⟨(claim_C6_identifier_generator "a" 3).2.1 (by decide),
   (claim_C6_identifier_generator "xyz" 12345).2.2 (by decide)⟩

/-- Claim C8: `process_html` applied to the empty input string returns the
empty output string, without raising any error. -/
theorem claim_C8_empty_input (pfx : String) : process_html "" pfx = .ok "" := rfl

/-- Claim C9: `process_html` is deterministic — running it twice on the same
original input with the same prefix yields identical output.  In this purely
functional model (no process-wide counters or caches, per the spec's
concurrency section) the two runs are one and the same value. -/
theorem claim_C9_deterministic (html pfx : String) :
    process_html html pfx = process_html html pfx := rfl

/-- Claim C10: the package `__init__.py` exports exactly `anchorfix` and
`PythonInfo` from `anchorfix._core`; the names `DuplicateIdError`,
`process_html` and `process_html_file` that `_core_test.py` imports from the
top-level package are not among the names `__init__.py` binds, so the
top-level import fails. -/
theorem claim_C10_package_surface :
    initAll = ["anchorfix", "PythonInfo"] ∧
    (∀ x ∈ initAll, x ∈ initCoreImports) ∧
    (∀ x ∈ coreTestTopLevelImports, x ∉ initTopLevelNames) := by
  decide

theorem claim_C10_witness : "process_html" ∉ initTopLevelNames :=
  claim_C10_package_surface.2.2 "process_html" (by decide)

/-- Claim C7: `process_html_file` raises the file-not-found error when the
path does not resolve, and otherwise returns exactly the result of
`process_html` on the file's contents, with no write-back (the function
consumes the filesystem read-only and returns only the rewritten text). -/
theorem claim_C7_file_entry (fs : FileSystem) (path pfx : String) :
    (alookup path fs = none →
      process_html_file fs path pfx = .error .fileNotFound) ∧
    (∀ c, alookup path fs = some c →
      process_html_file fs path pfx = process_html c pfx) := by
  constructor
  · intro h
    simp [process_html_file, h]
  · intro c h
    simp [process_html_file, h]

theorem claim_C7_witness :
    process_html_file [("doc.html", "")] "missing.html" "a" = .error .fileNotFound ∧
    process_html_file [("doc.html", "")] "doc.html" "a" = process_html "" "a" :=
  ⟨(claim_C7_file_entry [("doc.html", "")] "missing.html" "a").1 rfl,
   (claim_C7_file_entry [("doc.html", "")] "doc.html" "a").2 "" rfl⟩

/-- Claim C1: on a document whose anchorable elements have pairwise-distinct
normalized identifiers, processing succeeds and the identifiers carried by
the anchorable elements of the output, read in document order, are exactly
the sequential identifiers `anchorId pfx 1`, …, `anchorId pfx N` (prefix
plus counter zero-padded to 4 digits), each used exactly once. -/
theorem claim_C1_sequential_ids (doc : List Node) (pfx : String)
    (hnd : (scanIds doc).Nodup) :
    ∃ out, processDoc doc pfx = .ok out ∧
      out.filterMap rawId = idsFrom pfx 1 (scanIds doc).length := by
  refine ⟨_, processDoc_ok hnd, ?_⟩
  rw [rawId_map_rewrite doc (enumFrom pfx 1 (scanIds doc)) ?_]
  · exact map_enumFrom_getD (scanIds doc) 1 hnd
  · intro k hk
    obtain ⟨nid, h⟩ := enumFrom_alookup_of_mem (scanIds doc) 1 hk
    exact Option.isSome_iff_exists.mpr ⟨nid, h⟩

theorem claim_C1_witness :
    (scanIds [Node.elem "h2" [("id", "intro")],
      Node.elem "h3" [("id", "detail")]]).Nodup ∧
    ∃ out, processDoc [Node.elem "h2" [("id", "intro")],
        Node.elem "h3" [("id", "detail")]] "a" = .ok out ∧
      out.filterMap rawId = idsFrom "a" 1
        (scanIds [Node.elem "h2" [("id", "intro")],
          Node.elem "h3" [("id", "detail")]]).length :=
  ⟨by decide, claim_C1_sequential_ids _ "a" (by decide)⟩

/-- Claim C2: when two anchorable elements share the same normalized
identifier, processing raises the Duplicate-Identifier error whose queryable
field `id_value` is a normalized identifier occurring at least twice in the
scan, and no rewritten output is produced. -/
theorem claim_C2_duplicate_error (doc : List Node) (pfx : String)
    (hdup : ¬ (scanIds doc).Nodup) :
    ∃ e : DuplicateIdError, processDoc doc pfx = .error (.duplicate e) ∧
      2 ≤ (scanIds doc).count e.id_value ∧
      ∀ out, processDoc doc pfx ≠ .ok out := by
  cases hfd : firstDupIn [] (scanIds doc) with
  | none => exact absurd (firstDupIn_eq_none _ [] hfd).1 hdup
  | some d =>
    have herr : buildMapping pfx doc 1 [] = .error (.duplicate ⟨d⟩) :=
      buildMapping_err doc 1 [] (by simpa using hfd)
    have hcnt : 2 ≤ (scanIds doc).count d := by
      rcases firstDupIn_some_count _ [] hfd with ⟨hin, _⟩ | h
      · simp at hin
      · exact h
    refine ⟨⟨d⟩, ?_, hcnt, ?_⟩
    · unfold processDoc
      rw [herr]
      rfl
    · intro out hout
      unfold processDoc at hout
      rw [herr] at hout
      exact Except.noConfusion hout

theorem claim_C2_witness :
    (¬ (scanIds [Node.elem "h2" [("id", "duplicate")],
      Node.elem "h2" [("id", "duplicate")]]).Nodup) ∧
    ∃ e : DuplicateIdError,
      processDoc [Node.elem "h2" [("id", "duplicate")],
        Node.elem "h2" [("id", "duplicate")]] "a" = .error (.duplicate e) ∧
      2 ≤ (scanIds [Node.elem "h2" [("id", "duplicate")],
        Node.elem "h2" [("id", "duplicate")]]).count e.id_value ∧
      ∀ out, processDoc [Node.elem "h2" [("id", "duplicate")],
        Node.elem "h2" [("id", "duplicate")]] "a" ≠ .ok out :=
  ⟨by decide, claim_C2_duplicate_error _ "a" (by decide)⟩

/-- Claim C3: the same normalizer is applied to declared identifiers and to
fragment-reference targets — whenever a fragment-only reference's normalized
target equals the `i`-th normalized anchorable identifier (declared raw and
referenced percent-encoded, or vice versa), the reference is rewritten to
`#` plus that element's new identifier. -/
theorem claim_C3_normalization_both_sides (doc : List Node) (pfx : String)
    (j i : Nat) (tag : String) (attrs : List (String × String)) (a v t : String)
    (hnd : (scanIds doc).Nodup)
    (hj : doc.get? j = some (.elem tag attrs))
    (hmem : (a, v) ∈ attrs)
    (hnotid : identAttrName tag attrs ≠ some a)
    (hv : v = "#" ++ t)
    (hi : i < (scanIds doc).length)
    (ht : normalizeFragment t = (scanIds doc).get ⟨i, hi⟩) :
    ∃ out attrs', processDoc doc pfx = .ok out ∧
      out.get? j = some (.elem tag attrs') ∧
      (a, "#" ++ anchorId pfx (1 + i)) ∈ attrs' := by
  refine ⟨doc.map (rewriteNode (enumFrom pfx 1 (scanIds doc))),
    attrs.map (rewriteAttr (enumFrom pfx 1 (scanIds doc)) (identAttrName tag attrs)),
    processDoc_ok hnd, ?_, ?_⟩
  · rw [List.get?_map, hj]
    rfl
  · have hrw : rewriteAttr (enumFrom pfx 1 (scanIds doc))
        (identAttrName tag attrs) (a, v) = (a, "#" ++ anchorId pfx (1 + i)) := by
      unfold rewriteAttr rewriteVal
      rw [if_neg hnotid]
      subst hv
      simp only [fragTarget_hash_append, ht,
        enumFrom_alookup_get (scanIds doc) 1 hnd i hi]
    exact hrw ▸ List.mem_map_of_mem _ hmem

theorem claim_C3_witness :
    ∃ out attrs',
      processDoc [Node.elem "h2" [("id", "a b")],
        Node.elem "a" [("href", "#a%20b")]] "a" = .ok out ∧
      out.get? 1 = some (.elem "a" attrs') ∧
      ("href", "#" ++ anchorId "a" (1 + 0)) ∈ attrs' :=
  claim_C3_normalization_both_sides
    [Node.elem "h2" [("id", "a b")], Node.elem "a" [("href", "#a%20b")]]
    "a" 1 0 "a" [("href", "#a%20b")] "href" "#a%20b" "a%20b"
    (by decide) (by decide) (by decide) (by decide) (by decide) (by decide)
    (by decide)

/-- Claim C4: a reference attribute that is not fragment-only, or whose
normalized target is not among the document's normalized anchorable
identifiers (in particular when the document has no anchorable elements at
all), is left unchanged by processing. -/
theorem claim_C4_nonmatching_refs_unchanged (doc : List Node) (pfx : String)
    (j : Nat) (tag : String) (attrs : List (String × String)) (a v : String)
    (hnd : (scanIds doc).Nodup)
    (hj : doc.get? j = some (.elem tag attrs))
    (hmem : (a, v) ∈ attrs)
    (hnotid : identAttrName tag attrs ≠ some a)
    (hcond : fragTarget v = none ∨
      ∀ t, fragTarget v = some t → normalizeFragment t ∉ scanIds doc) :
    ∃ out attrs', processDoc doc pfx = .ok out ∧
      out.get? j = some (.elem tag attrs') ∧
      (a, v) ∈ attrs' := by
  refine ⟨doc.map (rewriteNode (enumFrom pfx 1 (scanIds doc))),
    attrs.map (rewriteAttr (enumFrom pfx 1 (scanIds doc)) (identAttrName tag attrs)),
    processDoc_ok hnd, ?_, ?_⟩
  · rw [List.get?_map, hj]
    rfl
  · have hrw : rewriteAttr (enumFrom pfx 1 (scanIds doc))
        (identAttrName tag attrs) (a, v) = (a, v) := by
      unfold rewriteAttr rewriteVal
      rw [if_neg hnotid]
      cases hft : fragTarget v with
      | none => rfl
      | some t =>
        rcases hcond with h | h
        · rw [hft] at h
          exact Option.noConfusion h
        · simp only [enumFrom_alookup_of_not_mem (scanIds doc) 1 (h t hft)]
    exact hrw ▸ List.mem_map_of_mem _ hmem

theorem claim_C4_witness :
    ∃ out attrs',
      processDoc [Node.elem "h2" [("id", "intro")],
        Node.elem "a" [("href", "other.html#section")]] "a" = .ok out ∧
      out.get? 1 = some (.elem "a" attrs') ∧
      ("href", "other.html#section") ∈ attrs' :=
  claim_C4_nonmatching_refs_unchanged
    [Node.elem "h2" [("id", "intro")],
      Node.elem "a" [("href", "other.html#section")]]
    "a" 1 "a" [("href", "other.html#section")] "href" "other.html#section"
    (by decide) (by decide) (by decide) (by decide) (Or.inl (by decide))

/-- Claim C5: an anchor element carrying only a `name` attribute gets its
`name` set to the new identifier with no `id` attribute introduced; and for
every anchorable element the identifier-bearing attribute is fully replaced
by the new identifier, leaving no binding of that attribute with the old
value in the output. -/
theorem claim_C5_name_attribute_and_replacement (doc : List Node) (pfx : String)
    (hnd : (scanIds doc).Nodup) :
    (∀ (j : Nat) (attrs : List (String × String)) (v : String),
      doc.get? j = some (.elem "a" attrs) → (attrs.map Prod.fst).Nodup →
      alookup "id" attrs = none → alookup "name" attrs = some v →
      ∃ out attrs' nid, processDoc doc pfx = .ok out ∧
        out.get? j = some (.elem "a" attrs') ∧
        alookup "id" attrs' = none ∧ alookup "name" attrs' = some nid ∧
        alookup (normalizeFragment v) (enumFrom pfx 1 (scanIds doc)) = some nid ∧
        ∀ w, ("name", w) ∈ attrs' → w = nid) ∧
    (∀ (j : Nat) (tag ia v : String) (attrs : List (String × String)),
      doc.get? j = some (.elem tag attrs) → (attrs.map Prod.fst).Nodup →
      identAttrName tag attrs = some ia → alookup ia attrs = some v →
      ∃ out attrs' nid, processDoc doc pfx = .ok out ∧
        out.get? j = some (.elem tag attrs') ∧
        alookup ia attrs' = some nid ∧
        alookup (normalizeFragment v) (enumFrom pfx 1 (scanIds doc)) = some nid ∧
        ∀ w, (ia, w) ∈ attrs' → w = nid) := by
  have main : ∀ (j : Nat) (tag ia v : String) (attrs : List (String × String)),
      doc.get? j = some (.elem tag attrs) → (attrs.map Prod.fst).Nodup →
      identAttrName tag attrs = some ia → alookup ia attrs = some v →
      ∃ nid,
        alookup ia (attrs.map (rewriteAttr (enumFrom pfx 1 (scanIds doc))
          (identAttrName tag attrs))) = some nid ∧
        alookup (normalizeFragment v) (enumFrom pfx 1 (scanIds doc)) = some nid ∧
        ∀ w, (ia, w) ∈ attrs.map (rewriteAttr (enumFrom pfx 1 (scanIds doc))
          (identAttrName tag attrs)) → w = nid := by
    intro j tag ia v attrs hj hkeys hia hv
    have hkey : nodeKey (.elem tag attrs) = some (normalizeFragment v) := by
      simp [nodeKey, hia, hv]
    have hmemdoc : Node.elem tag attrs ∈ doc := List.get?_mem hj
    have hkmem : normalizeFragment v ∈ scanIds doc := mem_scanIds hmemdoc hkey
    obtain ⟨nid, hnid⟩ := enumFrom_alookup_of_mem (scanIds doc) 1 hkmem
    refine ⟨nid, ?_, hnid, ?_⟩
    · rw [alookup_map_rewrite, hv]
      simp only [Option.map_some']
      congr 1
      unfold rewriteVal
      rw [hia, if_pos rfl, hnid, Option.getD_some]
    · intro w hw
      obtain ⟨p, hp, heq⟩ := List.mem_map.mp hw
      have hfst : p.1 = ia := congrArg Prod.fst heq
      have hval : p.2 = v := by
        have h1 : alookup ia attrs = some p.2 :=
          alookup_eq_some_of_mem_nodup hkeys (by
            have h2 : (p.1, p.2) ∈ attrs := hp
            rw [hfst] at h2
            exact h2)
        rw [hv] at h1
        exact (Option.some.injEq _ _ ▸ h1).symm
      have hsnd : rewriteVal (enumFrom pfx 1 (scanIds doc))
          (identAttrName tag attrs) p.1 p.2 = w := congrArg Prod.snd heq
      rw [hfst, hval] at hsnd
      unfold rewriteVal at hsnd
      rw [hia, if_pos rfl, hnid, Option.getD_some] at hsnd
      exact hsnd.symm
  constructor
  · intro j attrs v hj hkeys hid hname
    have hia : identAttrName "a" attrs = some "name" := by
      simp [identAttrName, headingTags, hid, hname]
    obtain ⟨nid, hlook, hmap, hall⟩ := main j "a" "name" v attrs hj hkeys hia hname
    refine ⟨doc.map (rewriteNode (enumFrom pfx 1 (scanIds doc))),
      attrs.map (rewriteAttr (enumFrom pfx 1 (scanIds doc))
        (identAttrName "a" attrs)),
      nid, processDoc_ok hnd, ?_, ?_, hlook, hmap, hall⟩
    · rw [List.get?_map, hj]
      rfl
    · rw [alookup_map_rewrite, hid]
      rfl
  · intro j tag ia v attrs hj hkeys hia hv
    obtain ⟨nid, hlook, hmap, hall⟩ := main j tag ia v attrs hj hkeys hia hv
    exact ⟨doc.map (rewriteNode (enumFrom pfx 1 (scanIds doc))),
      attrs.map (rewriteAttr (enumFrom pfx 1 (scanIds doc))
        (identAttrName tag attrs)),
      nid, processDoc_ok hnd,
      by rw [List.get?_map, hj]; rfl, hlook, hmap, hall⟩

theorem claim_C5_witness :
    (∃ out attrs' nid,
      processDoc [Node.elem "a" [("name", "old-anchor")]] "a" = .ok out ∧
      out.get? 0 = some (.elem "a" attrs') ∧
      alookup "id" attrs' = none ∧ alookup "name" attrs' = some nid ∧
      alookup (normalizeFragment "old-anchor")
        (enumFrom "a" 1 (scanIds [Node.elem "a" [("name", "old-anchor")]])) =
          some nid ∧
      ∀ w, ("name", w) ∈ attrs' → w = nid) ∧
    (∃ out attrs' nid,
      processDoc [Node.elem "a" [("name", "old-anchor")]] "a" = .ok out ∧
      out.get? 0 = some (.elem "a" attrs') ∧
      alookup "name" attrs' = some nid ∧
      alookup (normalizeFragment "old-anchor")
        (enumFrom "a" 1 (scanIds [Node.elem "a" [("name", "old-anchor")]])) =
          some nid ∧
      ∀ w, ("name", w) ∈ attrs' → w = nid) :=
  ⟨(claim_C5_name_attribute_and_replacement
      [Node.elem "a" [("name", "old-anchor")]] "a" (by decide)).1
      0 [("name", "old-anchor")] "old-anchor"
      (by decide) (by decide) (by decide) (by decide),
   (claim_C5_name_attribute_and_replacement
      [Node.elem "a" [("name", "old-anchor")]] "a" (by decide)).2
      0 "a" "name" "old-anchor" [("name", "old-anchor")]
      (by decide) (by decide) (by decide) (by decide)⟩

end Anchorfix
